import Mathlib

/-!
Verification development for the Graphia plugin repository.

The two algorithmic cores specified for this repository are embedded here
over exact rationals:

* `fill_gap` — the computational core of `spectral_interpolation`
  (src/morphing/spectral_interpolation/__init__.py, the body of the
  `if Form.ShowModal() == 1:` block): gap location via `np.searchsorted`,
  the availability / mode-fallback policy, FFT averaging of the two context
  segments, detrended inverse transform, linear ramp, and the tapered
  boundary correction, ending in the slice assignment
  `y_result[idx_a:idx_b] = interpolated`.

* `resample` — the computational core of `resample_series`
  (src/morphing/resample/__init__.py): derivation of `new_period` from the
  four input modes, the downsampling test, the `scipy.signal.decimate`
  path (integer factor `q`, clamped to ≥ 2, keep every `q`-th sample), and
  the interpolation path on the grid `np.arange(x_min, x_max + period/2,
  period)`.

The scipy/numpy numeric primitives that the plugins call (`scipy.fftpack.fft`
/ `ifft`, `scipy.signal.detrend`, the anti-aliasing low-pass inside
`scipy.signal.decimate`, and the three spline interpolators) are external
library collaborators, not code of this repository; they are modelled as the
fields of a `Libs` parameter, constrained only by the length-preservation
laws (`LibsOk`) that the real library functions satisfy.  `np.interp`,
`np.linspace`, `np.arange`, `np.searchsorted`, `np.diff`, `np.mean` and the
Python `round` / `int` conversions are simple enough to be embedded directly.

Machine floating point is modelled by exact rational arithmetic; the spec's
"within floating-point tolerance" phrases are read as exact equality of the
idealized computation.
-/

namespace Graphia

/-- Complex numbers with rational parts, as produced by the DFT of a rational
signal; only pairwise addition and scalar multiplication are needed. -/
abbrev Cq := ℚ × ℚ

/-- Pointwise complex addition. -/
def cadd (a b : Cq) : Cq := (a.1 + b.1, a.2 + b.2)

/-- Division of a complex value by two (`/ 2` in `(fft_pre + fft_post) / 2`). -/
def chalf (a : Cq) : Cq := (a.1 / 2, a.2 / 2)

/-- Real-scalar multiplication (`0.5 * fft_pre`). -/
def csmul (s : ℚ) (a : Cq) : Cq := (s * a.1, s * a.2)

/-- The external scipy primitives used by the two plugins, abstracted as an
opaque-library parameter (spec §6 treats the FFT/spline/decimation library as
an external collaborator). -/
structure Libs where
  /-- `scipy.fftpack.fft` on a real segment. -/
  fft : List ℚ → List Cq
  /-- `scipy.fftpack.ifft`. -/
  ifft : List Cq → List Cq
  /-- `scipy.signal.detrend` (least-squares linear detrend). -/
  detrend : List ℚ → List ℚ
  /-- The anti-aliasing low-pass filter applied by `scipy.signal.decimate`
  before downsampling; arguments: ftype index (0 = fir, 1 = iir),
  decimation factor `q`, signal. -/
  lowpass : ℕ → ℕ → List ℚ → List ℚ
  /-- `scipy.interpolate.CubicSpline x y` evaluated at one point. -/
  cubic : List ℚ → List ℚ → ℚ → ℚ
  /-- `scipy.interpolate.PchipInterpolator` evaluation. -/
  pchip : List ℚ → List ℚ → ℚ → ℚ
  /-- `scipy.interpolate.Akima1DInterpolator` evaluation. -/
  akima : List ℚ → List ℚ → ℚ → ℚ

/-- The shape laws the real scipy functions satisfy: all four array-valued
primitives preserve the length of their input array. -/
structure LibsOk (L : Libs) : Prop where
  fft_len : ∀ s, (L.fft s).length = s.length
  ifft_len : ∀ s, (L.ifft s).length = s.length
  detrend_len : ∀ s, (L.detrend s).length = s.length
  lowpass_len : ∀ f q s, (L.lowpass f q s).length = s.length

/-- Embedding of `np.searchsorted(xs, v)` with the default side, left: the first index
`i` with `v ≤ xs[i]`, i.e. the leftmost insertion point in a sorted list. -/
def searchsorted (xs : List ℚ) (v : ℚ) : ℕ :=
  match xs with
  | [] => 0
  | a :: rest => if v ≤ a then 0 else searchsorted rest v + 1

/-- Embedding of `np.linspace(a, b, m)`: the `m` evenly spaced points from `a` to `b`,
endpoints included. -/
def linspace (a b : ℚ) (m : ℕ) : List ℚ :=
  (List.range m).map fun i : ℕ => a + (i : ℚ) * (b - a) / ((m : ℚ) - 1)

/-- The failure modes of the gap filler (each `raise ValueError(...)` /
guard `show_error` in `spectral_interpolation`). -/
inductive FillErr where
  | tooFewPoints            -- "The series must have at least 10 points."
  | invalidRange            -- "Gap start (Xa) must be less than gap end (Xb)"
  | insufficientGapSize     -- "Gap must contain at least 2 points"
  | insufficientContextData -- "Insufficient data on both sides of the gap"
  | insufficientPreData     -- "Insufficient data before the gap"
  | insufficientPostData    -- "Insufficient data after the gap"
  | unrecognizedMode        -- mode index outside 0..3 (NameError on fft_avg)
  deriving DecidableEq

/-- The mode resolution / fallback policy (lines 349-368 of the plugin):
`Average` (0) and `Weighted` (3) fall back to `Post-gap only` (2) or
`Pre-gap only` (1) when exactly one side has enough context, and fail when
neither does; the single-sided modes fail when their side is unavailable. -/
def resolveMode (mode : ℕ) (hasPre hasPost : Bool) : Except FillErr ℕ :=
  if mode = 0 then
    if !hasPre && !hasPost then .error .insufficientContextData
    else if !hasPre then .ok 2
    else if !hasPost then .ok 1
    else .ok 0
  else if mode = 1 then
    if !hasPre then .error .insufficientPreData else .ok 1
  else if mode = 2 then
    if !hasPost then .error .insufficientPostData else .ok 2
  else if mode = 3 then
    if !hasPre && !hasPost then .error .insufficientContextData
    else if !hasPre then .ok 2
    else if !hasPost then .ok 1
    else .ok 3
  else .ok mode

/-- Line 417, `y_before_gap = y_orig[idx_a - 1] if idx_a > 0 else y_orig[0]`:
the ramp's start boundary value. -/
def rampStart (y : List ℚ) (idxA : ℕ) : ℚ :=
  if 0 < idxA then y.getD (idxA - 1) 0 else y.getD 0 0

/-- Line 418, `y_after_gap = y_orig[idx_b] if idx_b < n_points else y_orig[-1]`:
the ramp's end boundary value. -/
def rampEnd (y : List ℚ) (n idxB : ℕ) : ℚ :=
  if idxB < n then y.getD idxB 0 else y.getD (y.length - 1) 0

/-- The spectrum fed to the inverse FFT, per resolved mode (lines 371-409).
`y.drop (idxA - g) |>.take g` is `y_orig[idx_a-gap_size : idx_a]` (the two
slice expressions agree because this branch only runs when the pre side is
available, i.e. `g ≤ idx_a`); likewise the post slice. -/
def spectrumOf (L : Libs) (y : List ℚ) (idxA idxB m : ℕ) : Except FillErr (List Cq) :=
  let g := idxB - idxA
  let segPre := (y.drop (idxA - g)).take g
  let segPost := (y.drop idxB).take g
  match m with
  | 0 => .ok ((List.zipWith cadd (L.fft segPre) (L.fft segPost)).map chalf)
  | 1 => .ok (L.fft segPre)
  | 2 => .ok (L.fft segPost)
  | 3 => .ok (List.zipWith (fun a b => cadd (csmul (1/2) a) (csmul (1/2) b))
          (L.fft segPre) (L.fft segPost))
  | _ => .error .unrecognizedMode

/-- Lines 411-446: the replacement segment `interpolated` — inverse FFT +
detrend (`mixed_data`), the linear ramp `line_data` through the boundary
values (interior of `np.linspace(y_before, y_after, gap_size + 2)`), their
sum, and the tapered boundary correction
`interpolated + start_error*taper_start + end_error*taper_end`. -/
def correctedFill (L : Libs) (y : List ℚ) (n idxA idxB : ℕ) (favg : List Cq) :
    List ℚ :=
  let g := idxB - idxA
  let mixed := L.detrend ((L.ifft favg).map Prod.fst)
  let lineFull := linspace (rampStart y idxA) (rampEnd y n idxB) (g + 2)
  let line := (lineFull.drop 1).take g
  let interpolated := List.zipWith (· + ·) mixed line
  let targetStart := line.getD 0 0
  let targetEnd := line.getD (line.length - 1) 0
  let startErr := targetStart - interpolated.getD 0 0
  let endErr := targetEnd - interpolated.getD (interpolated.length - 1) 0
  let ts := linspace 0 1 g
  List.zipWith (fun v t => v + startErr * (1 - t) + endErr * t) interpolated ts

/-- Lines 448-450: `y_result = copy.deepcopy(y_orig)` followed by the slice
assignment `y_result[idx_a:idx_b] = interpolated`, realized as
take/append/drop (the replacement segment has length `idx_b - idx_a`
whenever the library length laws hold, which is what numpy's slice
assignment requires of the right-hand side). -/
def buildFill (L : Libs) (y : List ℚ) (n idxA idxB : ℕ) (favg : List Cq) : List ℚ :=
  y.take idxA ++ correctedFill L y n idxA idxB favg ++ y.drop idxB

/-- The computational core of `spectral_interpolation`: guards, gap location,
availability checks, mode resolution, and the spectral fill.  Mirrors the
source's check order: the 10-point guard (line 39), `xa >= xb` (line 329),
`gap_size < 2` (line 338), then data availability (`points_before = idx_a`,
`points_after = n_points - idx_b`, a side is available iff its count is
`>= gap_size`). -/
def fill_gap (L : Libs) (x y : List ℚ) (xa xb : ℚ) (mode : ℕ) :
    Except FillErr (List ℚ) :=
  if x.length < 10 then .error .tooFewPoints
  else if xb ≤ xa then .error .invalidRange
  else
    let idxA := searchsorted x xa
    let idxB := searchsorted x xb
    if (idxB : ℤ) - (idxA : ℤ) < 2 then .error .insufficientGapSize
    else
      let g := idxB - idxA
      match resolveMode mode (decide (g ≤ idxA)) (decide (g ≤ x.length - idxB)) with
      | .error e => .error e
      | .ok m =>
        match spectrumOf L y idxA idxB m with
        | .error e => .error e
        | .ok favg => .ok (buildFill L y x.length idxA idxB favg)

/-- The failure modes of the resampler (the `raise ValueError(...)` calls and
the 2-point guard in `resample_series`). -/
inductive ResErr where
  | tooFewPoints       -- "The series must have at least 2 points."
  | invalidPeriod      -- "Period must be greater than 0"
  | invalidFrequency   -- "Frequency must be greater than 0"
  | invalidPointCount  -- "Number of points must be at least 2"
  | invalidFactor      -- "Factor must be greater than 0"
  | unrecognizedMode   -- "Unrecognized mode"
  | unrecognizedMethod -- "Unrecognized method"
  deriving DecidableEq

/-- Python's `int()` on a float: truncation toward zero. -/
def pyInt (q : ℚ) : ℤ :=
  if 0 ≤ q then ⌊q⌋ else -⌊-q⌋

/-- Python 3's `round()` on a float: nearest integer, ties to even. -/
def pyRound (q : ℚ) : ℤ :=
  let f := ⌊q⌋
  if q - f < 1/2 then f
  else if 1/2 < q - f then f + 1
  else if f % 2 = 0 then f else f + 1

/-- Embedding of `np.mean` on a rational list. -/
def mean (l : List ℚ) : ℚ := l.sum / (l.length : ℚ)

/-- Embedding of `np.diff`: consecutive differences. -/
def diffs : List ℚ → List ℚ
  | a :: b :: l => (b - a) :: diffs (b :: l)
  | _ => []

/-- Embedding of a numpy array minimum (0 for the empty list, unreached: the
plugin guards `len >= 2`). -/
def listMin : List ℚ → ℚ
  | [] => 0
  | a :: l => l.foldl min a

/-- Embedding of a numpy array maximum. -/
def listMax : List ℚ → ℚ
  | [] => 0
  | a :: l => l.foldl max a

/-- Python slicing, every `q`-th element starting at index 0. -/
def everyNth (q : ℕ) : List ℚ → List ℚ
  | [] => []
  | a :: rest => a :: everyNth q (rest.drop (q - 1))
termination_by l => l.length
decreasing_by
  simp only [List.length_cons]
  exact Nat.lt_succ_of_le (List.length_drop _ rest ▸ Nat.sub_le _ _)

/-- Embedding of `np.arange(a, stop, step)` for positive step: the points `a + i*step`
with `i < ⌈(stop - a)/step⌉`. -/
def arange (a stop step : ℚ) : List ℚ :=
  if 0 < step then
    (List.range (⌈(stop - a) / step⌉).toNat).map fun i : ℕ => a + (i : ℚ) * step
  else []

/-- Embedding of `np.interp(t, xs, ys)` for increasing `xs`: constant extrapolation
outside the node range, linear interpolation between neighboring nodes. -/
def npInterp : List ℚ → List ℚ → ℚ → ℚ
  | [x0], y0 :: _, t => if t ≤ x0 then y0 else y0
  | x0 :: x1 :: xr, y0 :: y1 :: yr, t =>
    if t ≤ x0 then y0
    else if t ≤ x1 then y0 + (t - x0) * (y1 - y0) / (x1 - x0)
    else npInterp (x1 :: xr) (y1 :: yr) t
  | _, _, _ => 0

/-- Derivation of `new_period` from the resampling mode and the dialog value
(lines 306-327): explicit period, frequency (`1/val`), explicit point count
(`range/(n-1)`, point count < 2 is an error), or factor (`int(n*val)`
points, silently clamped to a minimum of 2). -/
def newPeriodOf (modeIdx : ℕ) (val : ℚ) (xRange : ℚ) (nPoints : ℕ) :
    Except ResErr ℚ :=
  if modeIdx = 0 then
    if val ≤ 0 then .error .invalidPeriod else .ok val
  else if modeIdx = 1 then
    if val ≤ 0 then .error .invalidFrequency else .ok (1 / val)
  else if modeIdx = 2 then
    let newN := pyInt val
    if newN < 2 then .error .invalidPointCount
    else .ok (xRange / ((newN : ℚ) - 1))
  else if modeIdx = 3 then
    if val ≤ 0 then .error .invalidFactor
    else
      let newN0 := pyInt ((nPoints : ℚ) * val)
      let newN := if newN0 < 2 then 2 else newN0
      .ok (xRange / ((newN : ℚ) - 1))
  else .error .unrecognizedMode

/-- The computational core of `resample_series` (lines 296-381):
`current_period = np.mean(np.diff(x))`, `new_period` from the mode,
`is_downsampling = new_period > current_period`; the decimation path
(`scipy.signal.decimate` = anti-alias low-pass then keep every `q`-th
sample, with `x_orig[::q]` truncated to the decimated length and a final
`min_len` truncation of both arrays), or the interpolation path on the grid
`np.arange(x_min, x_max + new_period/2, new_period)`. -/
def resample (L : Libs) (x y : List ℚ) (modeIdx : ℕ) (val : ℚ)
    (methodIdx : ℕ) (ftypeIdx : ℕ) : Except ResErr (List ℚ × List ℚ) :=
  if x.length < 2 then .error .tooFewPoints
  else
    let currentPeriod := mean (diffs x)
    let xMin := listMin x
    let xMax := listMax x
    match newPeriodOf modeIdx val (xMax - xMin) x.length with
    | .error e => .error e
    | .ok newPeriod =>
      if currentPeriod < newPeriod ∧ ftypeIdx < 2 then
        let q0 := pyRound (newPeriod / currentPeriod)
        let q := (if q0 < 2 then 2 else q0).toNat
        let yNew := everyNth q (L.lowpass ftypeIdx q y)
        let xNew := (everyNth q x).take yNew.length
        let m := min xNew.length yNew.length
        .ok (xNew.take m, yNew.take m)
      else
        let xNew := arange xMin (xMax + newPeriod / 2) newPeriod
        match methodIdx with
        | 0 => .ok (xNew, xNew.map (npInterp x y))
        | 1 => .ok (xNew, xNew.map (L.cubic x y))
        | 2 => .ok (xNew, xNew.map (L.pchip x y))
        | 3 => .ok (xNew, xNew.map (L.akima x y))
        | _ => .error .unrecognizedMethod

/-- A concrete library instance satisfying the length laws; used to evaluate
the embedding on closed inputs. -/
def trivLibs : Libs where
  fft := fun s => s.map (fun a => (a, 0))
  ifft := fun s => s
  detrend := fun s => s
  lowpass := fun _ _ s => s
  cubic := fun _ _ _ => 0
  pchip := fun _ _ _ => 0
  akima := fun _ _ _ => 0

theorem trivLibs_ok : LibsOk trivLibs := by
  constructor <;> intros <;> simp [trivLibs]

/-! ### Support lemmas -/

theorem searchsorted_le_length (xs : List ℚ) (v : ℚ) :
    searchsorted xs v ≤ xs.length := by
  induction xs with
  | nil => simp [searchsorted]
  | cons a rest ih =>
    simp only [searchsorted, List.length_cons]
    split
    · exact Nat.zero_le _
    · exact Nat.succ_le_succ ih

theorem searchsorted_mono (xs : List ℚ) {v w : ℚ} (h : v ≤ w) :
    searchsorted xs v ≤ searchsorted xs w := by
  induction xs with
  | nil => simp [searchsorted]
  | cons a rest ih =>
    simp only [searchsorted]
    split
    · exact Nat.zero_le _
    · rename_i hw
      rw [if_neg (fun hv => hw (le_trans h hv))]
      exact Nat.succ_le_succ ih

theorem length_linspace (a b : ℚ) (m : ℕ) : (linspace a b m).length = m := by
  rw [linspace, List.length_map, List.length_range]

theorem getD_linspace (a b : ℚ) {m i : ℕ} (h : i < m) :
    (linspace a b m).getD i 0 = a + i * (b - a) / ((m : ℚ) - 1) := by
  rw [linspace,
    List.getD_eq_getElem _ _ (by rw [List.length_map, List.length_range]; exact h),
    List.getElem_map, List.getElem_range]

theorem getD_zipWith (f : ℚ → ℚ → ℚ) {p q : List ℚ} {i : ℕ}
    (hp : i < p.length) (hq : i < q.length) :
    (List.zipWith f p q).getD i 0 = f (p.getD i 0) (q.getD i 0) := by
  rw [List.getD_eq_getElem _ _ (by simp [List.length_zipWith]; omega),
    List.getD_eq_getElem _ _ hp, List.getD_eq_getElem _ _ hq,
    List.getElem_zipWith]

theorem getD_take {l : List ℚ} {n i : ℕ} (h : i < n) :
    (l.take n).getD i 0 = l.getD i 0 := by
  by_cases hi : i < l.length
  · rw [List.getD_eq_getElem _ _ (by simp [List.length_take]; omega),
      List.getD_eq_getElem _ _ hi]
    exact List.getElem_take _
  · rw [List.getD_eq_default _ _ (by simp [List.length_take]; omega),
      List.getD_eq_default _ _ (by omega)]

theorem getD_drop {l : List ℚ} {n i : ℕ} (h : n + i < l.length) :
    (l.drop n).getD i 0 = l.getD (n + i) 0 := by
  rw [List.getD_eq_getElem _ _ (by simp; omega), List.getD_eq_getElem _ _ h]
  simp

/-! ### Unfolding the gap filler past its guards -/

/-- Unfolding of `fill_gap` once the three guards (point count, range, gap size) pass. -/
theorem fill_gap_eq_of_checks (L : Libs) (x y : List ℚ) (xa xb : ℚ) (mode : ℕ)
    (h10 : ¬ x.length < 10) (hab : ¬ xb ≤ xa)
    (hgap : ¬ ((searchsorted x xb : ℤ) - (searchsorted x xa : ℤ) < 2)) :
    fill_gap L x y xa xb mode =
      match resolveMode mode
          (decide (searchsorted x xb - searchsorted x xa ≤ searchsorted x xa))
          (decide (searchsorted x xb - searchsorted x xa ≤
            x.length - searchsorted x xb)) with
      | .error e => .error e
      | .ok m =>
        match spectrumOf L y (searchsorted x xa) (searchsorted x xb) m with
        | .error e => .error e
        | .ok favg =>
          .ok (buildFill L y x.length (searchsorted x xa) (searchsorted x xb) favg) := by
  unfold fill_gap
  rw [if_neg h10, if_neg hab, if_neg hgap]

/-- Destructor for a successful `fill_gap` call: the guards passed, the mode
resolved, and the result is the built fill. -/
theorem fill_gap_ok_elim {L : Libs} {x y : List ℚ} {xa xb : ℚ} {mode : ℕ}
    {r : List ℚ} (h : fill_gap L x y xa xb mode = .ok r) :
    10 ≤ x.length ∧ xa < xb ∧
    2 ≤ (searchsorted x xb : ℤ) - (searchsorted x xa : ℤ) ∧
    ∃ m favg,
      resolveMode mode
        (decide (searchsorted x xb - searchsorted x xa ≤ searchsorted x xa))
        (decide (searchsorted x xb - searchsorted x xa ≤
          x.length - searchsorted x xb)) = .ok m ∧
      spectrumOf L y (searchsorted x xa) (searchsorted x xb) m = .ok favg ∧
      r = buildFill L y x.length (searchsorted x xa) (searchsorted x xb) favg := by
  unfold fill_gap at h
  split at h
  · exact absurd h (by simp)
  · split at h
    · exact absurd h (by simp)
    · simp only [] at h
      split at h
      · exact absurd h (by simp)
      · refine ⟨by omega, by linarith [not_le.mp (by assumption : ¬ xb ≤ xa)], by omega, ?_⟩
        split at h
        · exact absurd h (by simp)
        · split at h
          · exact absurd h (by simp)
          · exact ⟨_, _, by assumption, by assumption, (Except.ok.inj h).symm⟩

/-- A resolved mode is one of the four segment-stage modes, and carries the
availability facts its segment extraction relies on. -/
theorem resolveMode_ok_elim {mode : ℕ} {hasPre hasPost : Bool} {m : ℕ}
    (h : resolveMode mode hasPre hasPost = .ok m) :
    (m = 0 ∧ hasPre = true ∧ hasPost = true) ∨
    (m = 1 ∧ hasPre = true) ∨
    (m = 2 ∧ hasPost = true) ∨
    (m = 3 ∧ hasPre = true ∧ hasPost = true) ∨ 4 ≤ m := by
  unfold resolveMode at h
  cases hasPre <;> cases hasPost <;>
    (repeat' split at h) <;> simp_all <;> omega

/-- Length of the pre-gap context segment `y_orig[idx_a-gap_size : idx_a]`
under pre-side availability. -/
theorem length_segPre {y : List ℚ} {idxA g : ℕ} (hpre : g ≤ idxA)
    (hA : idxA ≤ y.length) :
    ((y.drop (idxA - g)).take g).length = g := by
  rw [List.length_take, List.length_drop]
  omega

/-- Length of the post-gap context segment `y_orig[idx_b : idx_b+gap_size]`
under post-side availability. -/
theorem length_segPost {y : List ℚ} {idxB g : ℕ} (hpost : idxB + g ≤ y.length) :
    ((y.drop idxB).take g).length = g := by
  rw [List.length_take, List.length_drop]
  omega

/-- Under the library length laws and the availability facts of the resolved
mode, the averaged spectrum has exactly the gap's length. -/
theorem spectrumOf_ok_length {L : Libs} (hL : LibsOk L) {y : List ℚ}
    {idxA idxB m : ℕ} {favg : List Cq}
    (h : spectrumOf L y idxA idxB m = .ok favg)
    (hA : idxA ≤ y.length)
    (hpre : m = 0 ∨ m = 1 ∨ m = 3 → idxB - idxA ≤ idxA)
    (hpost : m = 0 ∨ m = 2 ∨ m = 3 → idxB + (idxB - idxA) ≤ y.length) :
    favg.length = idxB - idxA := by
  unfold spectrumOf at h
  simp only [] at h
  split at h
  · -- m = 0
    injection h with h
    subst h
    rw [List.length_map, List.length_zipWith, hL.fft_len, hL.fft_len,
      length_segPre (hpre (by simp)) hA, length_segPost (hpost (by simp))]
    exact min_self _
  · -- m = 1
    injection h with h
    subst h
    rw [hL.fft_len, length_segPre (hpre (by simp)) hA]
  · -- m = 2
    injection h with h
    subst h
    rw [hL.fft_len, length_segPost (hpost (by simp))]
  · -- m = 3
    injection h with h
    subst h
    rw [List.length_zipWith, hL.fft_len, hL.fft_len,
      length_segPre (hpre (by simp)) hA, length_segPost (hpost (by simp))]
    exact min_self _
  · exact absurd h (by simp)

/-! ### The replacement segment: length and endpoint values -/

theorem length_correctedFill {L : Libs} (hL : LibsOk L) (y : List ℚ)
    (n idxA idxB : ℕ) {favg : List Cq} (hfavg : favg.length = idxB - idxA) :
    (correctedFill L y n idxA idxB favg).length = idxB - idxA := by
  unfold correctedFill
  simp only [List.length_zipWith, hL.detrend_len, List.length_map, hL.ifft_len,
    hfavg, List.length_take, List.length_drop, length_linspace]
  omega

/-- After the tapered correction, the first replaced sample equals the first
interior point of the linear ramp exactly. -/
theorem correctedFill_getD_zero {L : Libs} (hL : LibsOk L) (y : List ℚ)
    (n idxA idxB : ℕ) {favg : List Cq} (hfavg : favg.length = idxB - idxA)
    (hg : 2 ≤ idxB - idxA) :
    (correctedFill L y n idxA idxB favg).getD 0 0 =
      rampStart y idxA +
        (rampEnd y n idxB - rampStart y idxA) / (((idxB - idxA : ℕ) : ℚ) + 1) := by
  have hmix : (L.detrend ((L.ifft favg).map Prod.fst)).length = idxB - idxA := by
    rw [hL.detrend_len, List.length_map, hL.ifft_len, hfavg]
  have hline : ((((linspace (rampStart y idxA) (rampEnd y n idxB)
      (idxB - idxA + 2)).drop 1).take (idxB - idxA))).length = idxB - idxA := by
    rw [List.length_take, List.length_drop, length_linspace]
    omega
  unfold correctedFill
  simp only []
  rw [getD_zipWith _ (by rw [List.length_zipWith, hmix, hline]; omega)
    (by rw [length_linspace]; omega)]
  rw [getD_linspace 0 1 (show 0 < idxB - idxA by omega)]
  rw [getD_zipWith _ (by rw [hmix]; omega) (by rw [hline]; omega),
    getD_take (show 0 < idxB - idxA by omega),
    getD_drop (show 1 + 0 < (linspace (rampStart y idxA) (rampEnd y n idxB)
      (idxB - idxA + 2)).length by rw [length_linspace]; omega),
    getD_linspace _ _ (show 1 + 0 < idxB - idxA + 2 by omega)]
  push_cast
  ring

/-- After the tapered correction, the last replaced sample equals the last
interior point of the linear ramp exactly. -/
theorem correctedFill_getD_last {L : Libs} (hL : LibsOk L) (y : List ℚ)
    (n idxA idxB : ℕ) {favg : List Cq} (hfavg : favg.length = idxB - idxA)
    (hg : 2 ≤ idxB - idxA) :
    (correctedFill L y n idxA idxB favg).getD (idxB - idxA - 1) 0 =
      rampStart y idxA +
        ((idxB - idxA : ℕ) : ℚ) * (rampEnd y n idxB - rampStart y idxA) /
          (((idxB - idxA : ℕ) : ℚ) + 1) := by
  have hmix : (L.detrend ((L.ifft favg).map Prod.fst)).length = idxB - idxA := by
    rw [hL.detrend_len, List.length_map, hL.ifft_len, hfavg]
  have hline : ((((linspace (rampStart y idxA) (rampEnd y n idxB)
      (idxB - idxA + 2)).drop 1).take (idxB - idxA))).length = idxB - idxA := by
    rw [List.length_take, List.length_drop, length_linspace]
    omega
  have hinterp : (List.zipWith (· + ·) (L.detrend ((L.ifft favg).map Prod.fst))
      (((linspace (rampStart y idxA) (rampEnd y n idxB)
        (idxB - idxA + 2)).drop 1).take (idxB - idxA))).length = idxB - idxA := by
    rw [List.length_zipWith, hmix, hline]
    omega
  unfold correctedFill
  simp only []
  rw [getD_zipWith _ (by rw [hinterp]; omega) (by rw [length_linspace]; omega)]
  rw [getD_linspace 0 1 (show idxB - idxA - 1 < idxB - idxA by omega)]
  rw [hinterp, hline]
  rw [getD_zipWith _ (by rw [hmix]; omega) (by rw [hline]; omega),
    getD_take (show idxB - idxA - 1 < idxB - idxA by omega),
    getD_drop (show 1 + (idxB - idxA - 1) < (linspace (rampStart y idxA)
      (rampEnd y n idxB) (idxB - idxA + 2)).length by rw [length_linspace]; omega)]
  rw [show 1 + (idxB - idxA - 1) = idxB - idxA from by omega]
  rw [getD_linspace _ _ (show idxB - idxA < idxB - idxA + 2 by omega)]
  have hcast : ((idxB - idxA - 1 : ℕ) : ℚ) = ((idxB - idxA : ℕ) : ℚ) - 1 := by
    have h1 : 1 ≤ idxB - idxA := by omega
    push_cast [h1]
    ring
  have hne : ((idxB - idxA : ℕ) : ℚ) - 1 ≠ 0 := by
    have h2 : (2 : ℚ) ≤ ((idxB - idxA : ℕ) : ℚ) := by exact_mod_cast hg
    intro hzero
    nlinarith
  rw [hcast]
  have hne2 : (((idxB - idxA : ℕ) : ℚ) + 1) ≠ 0 := by positivity
  have hcast2 : ((idxB - idxA + 2 : ℕ) : ℚ) - 1 = ((idxB - idxA : ℕ) : ℚ) + 1 := by
    push_cast
    ring
  rw [hcast2]
  field_simp [hne, hne2]

/-! ### Decomposition of a successful fill -/

theorem spectrumOf_ge4 {L : Libs} {y : List ℚ} {idxA idxB m : ℕ} (hm : 4 ≤ m) :
    spectrumOf L y idxA idxB m = .error .unrecognizedMode := by
  rcases m with _ | _ | _ | _ | m
  · omega
  · omega
  · omega
  · omega
  · rfl

/-- Every successful `fill_gap` result is the input with a `correctedFill`
segment of exactly the gap's length spliced over `[idx_a, idx_b)`. -/
theorem fill_gap_ok_main {L : Libs} {x y : List ℚ} {xa xb : ℚ} {mode : ℕ}
    {r : List ℚ} (hL : LibsOk L) (hxy : x.length = y.length)
    (h : fill_gap L x y xa xb mode = .ok r) :
    2 ≤ searchsorted x xb - searchsorted x xa ∧
    searchsorted x xb ≤ x.length ∧
    ∃ favg : List Cq,
      favg.length = searchsorted x xb - searchsorted x xa ∧
      r = y.take (searchsorted x xa) ++
          correctedFill L y x.length (searchsorted x xa) (searchsorted x xb) favg ++
          y.drop (searchsorted x xb) := by
  obtain ⟨h10, hab, hgap, m, favg, hres, hspec, hr⟩ := fill_gap_ok_elim h
  have hB : searchsorted x xb ≤ x.length := searchsorted_le_length x xb
  have hAB : searchsorted x xa ≤ searchsorted x xb := by omega
  have hg2 : 2 ≤ searchsorted x xb - searchsorted x xa := by omega
  refine ⟨hg2, hB, favg, ?_, ?_⟩
  · rcases resolveMode_ok_elim hres with ⟨hm, hp, hq⟩ | ⟨hm, hp⟩ | ⟨hm, hq⟩ |
      ⟨hm, hp, hq⟩ | hm
    · subst hm
      exact spectrumOf_ok_length hL hspec (by omega)
        (fun _ => by have := of_decide_eq_true hp; omega)
        (fun _ => by have := of_decide_eq_true hq; omega)
    · subst hm
      exact spectrumOf_ok_length hL hspec (by omega)
        (fun _ => by have := of_decide_eq_true hp; omega)
        (fun hc => by omega)
    · subst hm
      exact spectrumOf_ok_length hL hspec (by omega)
        (fun hc => by omega)
        (fun _ => by have := of_decide_eq_true hq; omega)
    · subst hm
      exact spectrumOf_ok_length hL hspec (by omega)
        (fun _ => by have := of_decide_eq_true hp; omega)
        (fun _ => by have := of_decide_eq_true hq; omega)
    · rw [spectrumOf_ge4 hm] at hspec
      exact absurd hspec (by simp)
  · rw [hr, buildFill]

/-- A successful fill never changes the array length. -/
theorem fill_gap_ok_length {L : Libs} {x y : List ℚ} {xa xb : ℚ} {mode : ℕ}
    {r : List ℚ} (hL : LibsOk L) (hxy : x.length = y.length)
    (h : fill_gap L x y xa xb mode = .ok r) :
    r.length = y.length := by
  obtain ⟨hg2, hB, favg, hfavg, hr⟩ := fill_gap_ok_main hL hxy h
  rw [hr, List.length_append, List.length_append, List.length_take,
    List.length_drop, length_correctedFill hL _ _ _ _ hfavg]
  omega

/-- The two single-sided modes succeed whenever the guards pass and their
side is available (no other error exists downstream of mode resolution). -/
theorem fill_gap_ok_single {L : Libs} {x y : List ℚ} {xa xb : ℚ} {mode : ℕ}
    (h10 : 10 ≤ x.length) (hab : xa < xb)
    (hgap : 2 ≤ (searchsorted x xb : ℤ) - (searchsorted x xa : ℤ))
    (hcase :
      (mode = 1 ∧ searchsorted x xb - searchsorted x xa ≤ searchsorted x xa) ∨
      (mode = 2 ∧ searchsorted x xb - searchsorted x xa ≤
        x.length - searchsorted x xb)) :
    ∃ r, fill_gap L x y xa xb mode = .ok r := by
  rw [fill_gap_eq_of_checks L x y xa xb mode (by omega) (by exact not_le.mpr hab)
    (by omega)]
  rcases hcase with ⟨hm, hp⟩ | ⟨hm, hq⟩
  · subst hm
    rw [decide_eq_true hp]
    simp [resolveMode, spectrumOf]
  · subst hm
    rw [decide_eq_true hq]
    simp [resolveMode, spectrumOf]

/-- Samples outside `[idx_a, idx_b)` are copied unchanged by a successful
fill. -/
theorem fill_gap_ok_outside {L : Libs} {x y : List ℚ} {xa xb : ℚ} {mode : ℕ}
    {r : List ℚ} (hL : LibsOk L) (hxy : x.length = y.length)
    (h : fill_gap L x y xa xb mode = .ok r) :
    ∀ i : ℕ, i < searchsorted x xa ∨ searchsorted x xb ≤ i →
      r.getD i 0 = y.getD i 0 := by
  obtain ⟨hg2, hB, favg, hfavg, hr⟩ := fill_gap_ok_main hL hxy h
  have hmid := length_correctedFill hL y x.length (searchsorted x xa)
    (searchsorted x xb) hfavg
  have hlentake : (y.take (searchsorted x xa)).length = searchsorted x xa := by
    rw [List.length_take]
    omega
  intro i hi
  rcases hi with hi | hi
  · rw [hr, List.append_assoc, List.getD_append _ _ _ _ (by omega), getD_take hi]
  · rw [hr, List.append_assoc,
      List.getD_append_right _ _ _ _ (by omega),
      List.getD_append_right _ _ _ _ (by rw [hmid, hlentake]; omega),
      hmid, hlentake]
    by_cases hylen : i < y.length
    · rw [getD_drop (by omega)]
      congr 1
      omega
    · rw [List.getD_eq_default _ _ (by rw [List.length_drop]; omega),
        List.getD_eq_default _ _ (by omega)]

/-! ### The claims -/

/-- C2: every successful `fill_gap` call returns a Y array of exactly the
input's length, identical to the input at every index outside the half-open
gap range `[idx_a, idx_b)`; only the samples inside the gap are replaced. -/
theorem claim_C2_frame {L : Libs} {x y : List ℚ} {xa xb : ℚ} {mode : ℕ}
    {r : List ℚ} (hL : LibsOk L) (hxy : x.length = y.length)
    (h : fill_gap L x y xa xb mode = .ok r) :
    r.length = y.length ∧
    ∀ i : ℕ, i < searchsorted x xa ∨ searchsorted x xb ≤ i →
      r.getD i 0 = y.getD i 0 :=
  ⟨fill_gap_ok_length hL hxy h, fill_gap_ok_outside hL hxy h⟩

/-- C1: for a successful `fill_gap` call (with both boundary samples in
range), the samples just outside the gap are untouched, and the first and
last replaced samples land exactly on the interior endpoints of the linear
ramp between `y[idx_a - 1]` and `y[idx_b]` — the tapered correction makes
them match the ramp, guaranteeing continuity with the surrounding signal
(exact equality in exact arithmetic, hence within any floating-point
tolerance). -/
theorem claim_C1_boundary {L : Libs} {x y : List ℚ} {xa xb : ℚ} {mode : ℕ}
    {r : List ℚ} (hL : LibsOk L) (hxy : x.length = y.length)
    (h : fill_gap L x y xa xb mode = .ok r)
    (hA1 : 1 ≤ searchsorted x xa) (hBn : searchsorted x xb < y.length) :
    r.getD (searchsorted x xa - 1) 0 = y.getD (searchsorted x xa - 1) 0 ∧
    r.getD (searchsorted x xb) 0 = y.getD (searchsorted x xb) 0 ∧
    r.getD (searchsorted x xa) 0 =
      y.getD (searchsorted x xa - 1) 0 +
        (y.getD (searchsorted x xb) 0 - y.getD (searchsorted x xa - 1) 0) /
          (((searchsorted x xb - searchsorted x xa : ℕ) : ℚ) + 1) ∧
    r.getD (searchsorted x xb - 1) 0 =
      y.getD (searchsorted x xa - 1) 0 +
        ((searchsorted x xb - searchsorted x xa : ℕ) : ℚ) *
          (y.getD (searchsorted x xb) 0 - y.getD (searchsorted x xa - 1) 0) /
          (((searchsorted x xb - searchsorted x xa : ℕ) : ℚ) + 1) := by
  obtain ⟨hg2, hB, favg, hfavg, hr⟩ := fill_gap_ok_main hL hxy h
  have hmid := length_correctedFill hL y x.length (searchsorted x xa)
    (searchsorted x xb) hfavg
  have hlentake : (y.take (searchsorted x xa)).length = searchsorted x xa := by
    rw [List.length_take]
    omega
  have hstart : rampStart y (searchsorted x xa) = y.getD (searchsorted x xa - 1) 0 :=
    if_pos (by omega)
  have hend : rampEnd y x.length (searchsorted x xb) = y.getD (searchsorted x xb) 0 :=
    if_pos (by omega)
  refine ⟨fill_gap_ok_outside hL hxy h _ (Or.inl (by omega)),
    fill_gap_ok_outside hL hxy h _ (Or.inr le_rfl), ?_, ?_⟩
  · rw [hr, List.append_assoc, List.getD_append_right _ _ _ _ (by omega),
      hlentake, Nat.sub_self,
      List.getD_append _ _ _ _ (by rw [hmid]; omega),
      correctedFill_getD_zero hL y x.length _ _ hfavg hg2, hstart, hend]
  · rw [hr, List.append_assoc, List.getD_append_right _ _ _ _ (by omega),
      hlentake,
      List.getD_append _ _ _ _ (by rw [hmid]; omega),
      show searchsorted x xb - 1 - searchsorted x xa =
        searchsorted x xb - searchsorted x xa - 1 from by omega,
      correctedFill_getD_last hL y x.length _ _ hfavg hg2, hstart, hend]

/-- Halving a pointwise sum of complex lists is the same as summing the
halves: `(fft_pre + fft_post) / 2 = 0.5*fft_pre + 0.5*fft_post`. -/
theorem map_chalf_zipWith_cadd : ∀ p q : List Cq,
    (List.zipWith cadd p q).map chalf =
      List.zipWith (fun a b => cadd (csmul (1/2) a) (csmul (1/2) b)) p q := by
  intro p
  induction p with
  | nil => intro q; simp
  | cons a p ih =>
    intro q
    cases q with
    | nil => simp
    | cons b q =>
      simp only [List.zipWith_cons_cons, List.map_cons, ih]
      refine congrArg (· :: _) ?_
      simp only [cadd, chalf, csmul, Prod.mk.injEq]
      constructor <;> ring

/-- The averaged spectrum of mode `Average` equals that of mode `Weighted`
(fixed 0.5/0.5 weights). -/
theorem spectrumOf_zero_eq_three (L : Libs) (y : List ℚ) (idxA idxB : ℕ) :
    spectrumOf L y idxA idxB 0 = spectrumOf L y idxA idxB 3 := by
  unfold spectrumOf
  simp only []
  rw [map_chalf_zipWith_cadd]

/-- C9: `fill_gap` with mode `Weighted average` produces exactly the same
Y array as mode `Average (pre + post)` on every input — the fixed 0.5/0.5
weights make `0.5*FFT(pre) + 0.5*FFT(post)` equal `(FFT(pre)+FFT(post))/2`,
the fallback logic of the two modes is identical, and every downstream step
coincides; the two modes differ only in the legend label attached to the new
series (not part of the computed data). -/
theorem claim_C9_weighted_eq_average (L : Libs) (x y : List ℚ) (xa xb : ℚ) :
    fill_gap L x y xa xb 0 = fill_gap L x y xa xb 3 := by
  by_cases h10 : x.length < 10
  · simp [fill_gap, h10]
  by_cases hab : xb ≤ xa
  · simp [fill_gap, h10, hab]
  by_cases hgap : (searchsorted x xb : ℤ) - (searchsorted x xa : ℤ) < 2
  · simp [fill_gap, h10, hab, hgap]
  rw [fill_gap_eq_of_checks L x y xa xb 0 h10 hab hgap,
    fill_gap_eq_of_checks L x y xa xb 3 h10 hab hgap]
  cases hp : decide (searchsorted x xb - searchsorted x xa ≤ searchsorted x xa) <;>
    cases hq : decide (searchsorted x xb - searchsorted x xa ≤
      x.length - searchsorted x xb) <;>
    simp [resolveMode, spectrumOf_zero_eq_three L y (searchsorted x xa)
      (searchsorted x xb)]

/-- C7: with the 10-point guard passed, `fill_gap` fails with the invalid
range error whenever `xa ≥ xb`, and fails with the insufficient-gap-size
error whenever `xa < xb` but the located gap `idx_b - idx_a` has fewer than
2 points; both failures happen before any fill is computed and return no
output array (an `Except.error` carries no data). -/
theorem claim_C7_guards (L : Libs) (x y : List ℚ) (xa xb : ℚ) (mode : ℕ)
    (h10 : 10 ≤ x.length) :
    (xb ≤ xa → fill_gap L x y xa xb mode = .error .invalidRange) ∧
    (xa < xb →
      (searchsorted x xb : ℤ) - (searchsorted x xa : ℤ) < 2 →
      fill_gap L x y xa xb mode = .error .insufficientGapSize) := by
  constructor
  · intro hba
    rw [fill_gap, if_neg (by omega), if_pos hba]
  · intro hab hgap
    rw [fill_gap, if_neg (by omega), if_neg (not_le.mpr hab)]
    simp only []
    rw [if_pos hgap]

/-- C3: for `Average` (0) or `Weighted` (3) mode, with gap checks passed and
a side available iff its point count (`idx_a` before, `n - idx_b` after) is
at least the gap size: if both sides are unavailable the call fails with the
insufficient-context error and produces no fill; if exactly one side is
available the call silently falls back to that side's single-sided mode
(`Post-gap only` = 2 / `Pre-gap only` = 1) — it computes exactly what the
fallback mode computes — and succeeds. -/
theorem claim_C3_fallback (L : Libs) (x y : List ℚ) (xa xb : ℚ) (mode : ℕ)
    (h10 : 10 ≤ x.length) (hab : xa < xb) (hmode : mode = 0 ∨ mode = 3)
    (hgap : 2 ≤ (searchsorted x xb : ℤ) - (searchsorted x xa : ℤ)) :
    (¬ searchsorted x xb - searchsorted x xa ≤ searchsorted x xa →
     ¬ searchsorted x xb - searchsorted x xa ≤ x.length - searchsorted x xb →
      fill_gap L x y xa xb mode = .error .insufficientContextData) ∧
    (¬ searchsorted x xb - searchsorted x xa ≤ searchsorted x xa →
     searchsorted x xb - searchsorted x xa ≤ x.length - searchsorted x xb →
      fill_gap L x y xa xb mode = fill_gap L x y xa xb 2 ∧
      ∃ r, fill_gap L x y xa xb mode = .ok r) ∧
    (searchsorted x xb - searchsorted x xa ≤ searchsorted x xa →
     ¬ searchsorted x xb - searchsorted x xa ≤ x.length - searchsorted x xb →
      fill_gap L x y xa xb mode = fill_gap L x y xa xb 1 ∧
      ∃ r, fill_gap L x y xa xb mode = .ok r) := by
  have hd := fill_gap_eq_of_checks L x y xa xb mode (by omega) (not_le.mpr hab)
    (by omega)
  refine ⟨?_, ?_, ?_⟩
  · intro hpre hpost
    rw [hd, decide_eq_false hpre, decide_eq_false hpost]
    rcases hmode with hm | hm <;> subst hm <;> simp [resolveMode]
  · intro hpre hpost
    have heq : fill_gap L x y xa xb mode = fill_gap L x y xa xb 2 := by
      rw [hd, fill_gap_eq_of_checks L x y xa xb 2 (by omega) (not_le.mpr hab)
        (by omega), decide_eq_false hpre, decide_eq_true hpost]
      rcases hmode with hm | hm <;> subst hm <;> simp [resolveMode]
    obtain ⟨r, hr⟩ := @fill_gap_ok_single L x y xa xb 2 (by omega) hab hgap
      (Or.inr ⟨rfl, hpost⟩)
    exact ⟨heq, r, heq.trans hr⟩
  · intro hpre hpost
    have heq : fill_gap L x y xa xb mode = fill_gap L x y xa xb 1 := by
      rw [hd, fill_gap_eq_of_checks L x y xa xb 1 (by omega) (not_le.mpr hab)
        (by omega), decide_eq_true hpre, decide_eq_false hpost]
      rcases hmode with hm | hm <;> subst hm <;> simp [resolveMode]
    obtain ⟨r, hr⟩ := @fill_gap_ok_single L x y xa xb 1 (by omega) hab hgap
      (Or.inl ⟨rfl, hpre⟩)
    exact ⟨heq, r, heq.trans hr⟩

/-- C10: when the gap starts at the very first sample (`idx_a = 0`), the
ramp's start boundary value is `y[0]` — a sample inside the gap — instead of
a sample before the gap; symmetrically, when the gap ends at the array end
(`idx_b = n`) the ramp's end boundary value is `y[n-1]`.  With one available
context side (single-sided mode) the call still succeeds and returns a
full-length array (all reads in the embedding are in-bounds `getD`
accesses, mirroring the source's guarded indexing). -/
theorem claim_C10_edge_boundaries (L : Libs) (x y : List ℚ) (xa xb : ℚ)
    (mode : ℕ) (hL : LibsOk L) (hxy : x.length = y.length)
    (h10 : 10 ≤ x.length) (hab : xa < xb)
    (hgap : 2 ≤ (searchsorted x xb : ℤ) - (searchsorted x xa : ℤ))
    (hcase :
      (mode = 1 ∧ searchsorted x xb - searchsorted x xa ≤ searchsorted x xa) ∨
      (mode = 2 ∧ searchsorted x xb - searchsorted x xa ≤
        x.length - searchsorted x xb)) :
    (searchsorted x xa = 0 →
      rampStart y (searchsorted x xa) = y.getD 0 0) ∧
    (searchsorted x xb = x.length →
      rampEnd y x.length (searchsorted x xb) = y.getD (y.length - 1) 0) ∧
    ∃ r, fill_gap L x y xa xb mode = .ok r ∧ r.length = y.length := by
  obtain ⟨r, hr⟩ := fill_gap_ok_single h10 hab hgap hcase
  refine ⟨?_, ?_, r, hr, fill_gap_ok_length hL hxy hr⟩
  · intro h0
    rw [h0, rampStart, if_neg (by omega)]
  · intro hn
    rw [hn, rampEnd, if_neg (by omega)]

/-! ### Concrete inputs for the witnesses -/

def x10 : List ℚ := [0, 1, 2, 3, 4, 5, 6, 7, 8, 9]

def y10 : List ℚ := [5, 4, 3, 2, 1, 1, 2, 3, 4, 5]

def x12 : List ℚ := [0, 1, 2, 3, 4, 5, 6, 7, 8, 9, 10, 11]

theorem claim_C1_boundary_witness :
    x12.getD (searchsorted x12 4 - 1) 0 = x12.getD (searchsorted x12 4 - 1) 0 ∧
    x12.getD (searchsorted x12 8) 0 = x12.getD (searchsorted x12 8) 0 ∧
    x12.getD (searchsorted x12 4) 0 =
      x12.getD (searchsorted x12 4 - 1) 0 +
        (x12.getD (searchsorted x12 8) 0 - x12.getD (searchsorted x12 4 - 1) 0) /
          (((searchsorted x12 8 - searchsorted x12 4 : ℕ) : ℚ) + 1) ∧
    x12.getD (searchsorted x12 8 - 1) 0 =
      x12.getD (searchsorted x12 4 - 1) 0 +
        ((searchsorted x12 8 - searchsorted x12 4 : ℕ) : ℚ) *
          (x12.getD (searchsorted x12 8) 0 - x12.getD (searchsorted x12 4 - 1) 0) /
          (((searchsorted x12 8 - searchsorted x12 4 : ℕ) : ℚ) + 1) :=
  @claim_C1_boundary trivLibs x12 x12 4 8 0 x12 trivLibs_ok rfl
    (by norm_num [fill_gap, x12, searchsorted, resolveMode, spectrumOf, buildFill,
      correctedFill, trivLibs, linspace, rampStart, rampEnd, cadd, chalf, csmul,
      List.range_succ])
    (by norm_num [x12, searchsorted]) (by norm_num [x12, searchsorted])

theorem claim_C2_frame_witness :
    x12.length = x12.length ∧
    ∀ i : ℕ, i < searchsorted x12 4 ∨ searchsorted x12 8 ≤ i →
      x12.getD i 0 = x12.getD i 0 :=
  @claim_C2_frame trivLibs x12 x12 4 8 0 x12 trivLibs_ok rfl
    (by norm_num [fill_gap, x12, searchsorted, resolveMode, spectrumOf, buildFill,
      correctedFill, trivLibs, linspace, rampStart, rampEnd, cadd, chalf, csmul,
      List.range_succ])

theorem claim_C3_fallback_witness :
    fill_gap trivLibs x10 y10 0 5 0 = fill_gap trivLibs x10 y10 0 5 2 := by
  have h := (claim_C3_fallback trivLibs x10 y10 0 5 0 (by norm_num [x10])
    (by norm_num) (Or.inl rfl) (by norm_num [x10, searchsorted])).2.1
  exact (h (by norm_num [x10, searchsorted]) (by norm_num [x10, searchsorted])).1

theorem claim_C7_guards_witness :
    fill_gap trivLibs x10 x10 5 3 0 = .error .invalidRange ∧
    fill_gap trivLibs x10 x10 3 (7/2) 0 = .error .insufficientGapSize := by
  constructor
  · exact (claim_C7_guards trivLibs x10 x10 5 3 0 (by norm_num [x10])).1
      (by norm_num)
  · exact (claim_C7_guards trivLibs x10 x10 3 (7/2) 0 (by norm_num [x10])).2
      (by norm_num) (by norm_num [x10, searchsorted])

theorem claim_C10_edge_boundaries_witness :
    rampStart y10 (searchsorted x10 0) = y10.getD 0 0 ∧
    rampEnd y10 x10.length (searchsorted x10 20) = y10.getD (y10.length - 1) 0 ∧
    (fill_gap trivLibs x10 y10 0 5 2).toOption.isSome = true := by
  refine ⟨?_, ?_, ?_⟩
  · exact (claim_C10_edge_boundaries trivLibs x10 y10 0 5 2 trivLibs_ok rfl
      (by norm_num [x10]) (by norm_num) (by norm_num [x10, searchsorted])
      (Or.inr ⟨rfl, by norm_num [x10, searchsorted]⟩)).1
      (by norm_num [x10, searchsorted])
  · exact (claim_C10_edge_boundaries trivLibs x10 y10 8 20 1 trivLibs_ok rfl
      (by norm_num [x10]) (by norm_num) (by norm_num [x10, searchsorted])
      (Or.inl ⟨rfl, by norm_num [x10, searchsorted]⟩)).2.1
      (by norm_num [x10, searchsorted])
  · obtain ⟨r, hr, -⟩ := (claim_C10_edge_boundaries trivLibs x10 y10 0 5 2
      trivLibs_ok rfl (by norm_num [x10]) (by norm_num)
      (by norm_num [x10, searchsorted])
      (Or.inr ⟨rfl, by norm_num [x10, searchsorted]⟩)).2.2
    rw [hr]
    rfl

/-! ### Resampler support lemmas -/

theorem getD_drop' (l : List ℚ) (n i : ℕ) :
    (l.drop n).getD i 0 = l.getD (n + i) 0 := by
  by_cases h : n + i < l.length
  · exact getD_drop h
  · rw [List.getD_eq_default _ _ (by rw [List.length_drop]; omega),
      List.getD_eq_default _ _ (by omega)]

/-- Decimation indexing: `l[::q]` reads the input at the multiples of `q` (both sides default to
0 outside the respective ranges). -/
theorem everyNth_getD (q : ℕ) (hq : 1 ≤ q) (l : List ℚ) (i : ℕ) :
    (everyNth q l).getD i 0 = l.getD (q * i) 0 := by
  suffices h : ∀ (n : ℕ) (l : List ℚ), l.length ≤ n → ∀ i : ℕ,
      (everyNth q l).getD i 0 = l.getD (q * i) 0 from h l.length l le_rfl i
  intro n
  induction n with
  | zero =>
    intro l hl i
    cases l with
    | nil => simp [everyNth]
    | cons a rest => exact absurd hl (by simp)
  | succ n ihn =>
    intro l hl i
    cases l with
    | nil => simp [everyNth]
    | cons a rest =>
      cases i with
      | zero => rw [everyNth, Nat.mul_zero]; rfl
      | succ i =>
        rw [everyNth, List.getD_cons_succ,
          ihn (rest.drop (q - 1))
            (by rw [List.length_drop]; simp only [List.length_cons] at hl; omega) i,
          getD_drop',
          show q * (i + 1) = (q - 1 + q * i) + 1 from by
            rw [Nat.mul_add, Nat.mul_one]; omega,
          List.getD_cons_succ]

/-- Lists of equal length decimate to lists of equal length. -/
theorem everyNth_length_congr (q : ℕ) (l l' : List ℚ)
    (hlen : l.length = l'.length) :
    (everyNth q l).length = (everyNth q l').length := by
  suffices h : ∀ (n : ℕ) (l l' : List ℚ), l.length ≤ n → l.length = l'.length →
      (everyNth q l).length = (everyNth q l').length from
    h l.length l l' le_rfl hlen
  intro n
  induction n with
  | zero =>
    intro l l' hl hll
    cases l with
    | nil =>
      cases l' with
      | nil => rfl
      | cons b rest' => exact absurd hll (by simp)
    | cons a rest => exact absurd hl (by simp)
  | succ n ihn =>
    intro l l' hl hll
    cases l with
    | nil =>
      cases l' with
      | nil => rfl
      | cons b rest' => exact absurd hll (by simp)
    | cons a rest =>
      cases l' with
      | nil => exact absurd hll (by simp)
      | cons b rest' =>
        rw [everyNth, everyNth, List.length_cons, List.length_cons,
          ihn (rest.drop (q - 1)) (rest'.drop (q - 1))
            (by rw [List.length_drop]; simp only [List.length_cons] at hl; omega)
            (by rw [List.length_drop, List.length_drop]
                simp only [List.length_cons] at hll
                omega)]

theorem length_arange {a stop step : ℚ} (hstep : 0 < step) :
    (arange a stop step).length = (⌈(stop - a) / step⌉).toNat := by
  rw [arange, if_pos hstep, List.length_map, List.length_range]

theorem getD_arange {a stop step : ℚ} (hstep : 0 < step) {i : ℕ}
    (hi : i < (arange a stop step).length) :
    (arange a stop step).getD i 0 = a + (i : ℚ) * step := by
  rw [length_arange hstep] at hi
  rw [arange, if_pos hstep,
    List.getD_eq_getElem _ _ (by rw [List.length_map, List.length_range]; exact hi),
    List.getElem_map, List.getElem_range]

theorem foldl_min_le_init (l : List ℚ) (a : ℚ) : l.foldl min a ≤ a := by
  induction l generalizing a with
  | nil => exact le_rfl
  | cons c l ih => exact le_trans (ih (min a c)) (min_le_left a c)

theorem foldl_max_init_le (l : List ℚ) (a : ℚ) : a ≤ l.foldl max a := by
  induction l generalizing a with
  | nil => exact le_rfl
  | cons c l ih => exact le_trans (le_max_left a c) (ih (max a c))

theorem listMin_le_listMax {l : List ℚ} (h : l ≠ []) : listMin l ≤ listMax l := by
  cases l with
  | nil => exact absurd rfl h
  | cons a l =>
    exact le_trans (foldl_min_le_init l a) (foldl_max_init_le l a)

theorem foldl_min_const {l : List ℚ} {a : ℚ} (h : ∀ b ∈ l, a ≤ b) :
    l.foldl min a = a := by
  induction l with
  | nil => rfl
  | cons c l ih =>
    rw [List.foldl_cons, min_eq_left (h c (by simp))]
    exact ih fun b hb => h b (by simp [hb])

theorem foldl_max_mem (l : List ℚ) (a : ℚ) : l.foldl max a ∈ a :: l := by
  induction l generalizing a with
  | nil => simp
  | cons c l ih =>
    rw [List.foldl_cons]
    rcases List.mem_cons.mp (ih (max a c)) with h | h
    · rw [h]
      rcases max_choice a c with hac | hac <;> rw [hac] <;> simp
    · simp [h]

theorem le_foldl_max (l : List ℚ) (a : ℚ) : ∀ b ∈ a :: l, b ≤ l.foldl max a := by
  induction l generalizing a with
  | nil =>
    intro b hb
    simp only [List.mem_singleton] at hb
    exact le_of_eq hb
  | cons c l ih =>
    intro b hb
    rw [List.foldl_cons]
    rcases List.mem_cons.mp hb with hba | hbc
    · rw [hba]
      exact le_trans (le_max_left a c) (foldl_max_init_le l (max a c))
    · rcases List.mem_cons.mp hbc with hbc | hbl
      · rw [hbc]
        exact le_trans (le_max_right a c) (foldl_max_init_le l (max a c))
      · exact ih (max a c) b (by simp [hbl])

/-- Folding max returns the distinguished maximum of the list. -/
theorem foldl_max_eq {l : List ℚ} {a m : ℚ} (hm : m ∈ a :: l)
    (hb : ∀ b ∈ a :: l, b ≤ m) : l.foldl max a = m :=
  le_antisymm (hb _ (foldl_max_mem l a)) (le_foldl_max l a m hm)

/-- C4: in explicit-period mode with `new_period > current_period` and an
FIR/IIR filter selection, `resample` takes the decimation path: the factor
is `q = round(new_period/current_period)` clamped to at least 2, the Y
output is the anti-alias-filtered signal keeping every `q`-th sample, and
the X output is every `q`-th original x sample (its `i`-th entry is
`x[q*i]`), truncated to the filtered Y's length — regardless of the
interpolation method selected. -/
theorem claim_C4_decimation (L : Libs) (hL : LibsOk L) (x y : List ℚ)
    (val : ℚ) (mIdx fIdx q : ℕ)
    (hn : 2 ≤ x.length) (hxy : x.length = y.length) (hval : 0 < val)
    (hdown : mean (diffs x) < val) (hf : fIdx < 2)
    (hq : q = (if pyRound (val / mean (diffs x)) < 2 then 2
               else pyRound (val / mean (diffs x))).toNat) :
    resample L x y 0 val mIdx fIdx =
      .ok (everyNth q x, everyNth q (L.lowpass fIdx q y)) ∧
    2 ≤ q ∧
    ∀ i : ℕ, (everyNth q x).getD i 0 = x.getD (q * i) 0 := by
  have hq2 : 2 ≤ q := by
    rw [hq]
    split
    · simp
    · rename_i h
      omega
  refine ⟨?_, hq2, fun i => everyNth_getD q (by omega) x i⟩
  unfold resample
  rw [if_neg (by omega)]
  have hper : newPeriodOf 0 val (listMax x - listMin x) x.length = .ok val := by
    unfold newPeriodOf
    rw [if_pos rfl, if_neg (not_le.mpr hval)]
  simp only []
  rw [hper]
  simp only []
  rw [if_pos ⟨hdown, hf⟩, ← hq]
  have hylen : (L.lowpass fIdx q y).length = x.length := by
    rw [hL.lowpass_len, hxy]
  have hlen : (everyNth q (L.lowpass fIdx q y)).length = (everyNth q x).length :=
    everyNth_length_congr q _ _ (by rw [hylen])
  rw [hlen, List.take_length, min_self, List.take_length, ← hlen,
    List.take_length]

/-- Rewriting `Int.ceil` as a floor, for numeric evaluation. -/
theorem ceil_eq_neg_floor_neg (a : ℚ) : ⌈a⌉ = -⌊-a⌋ := by
  rw [Int.floor_neg, neg_neg]

/-- The canonical arithmetic grid `a, a+step, …` of `N` points; `arange`
with positive step always produces such a grid. -/
def arithList (a step : ℚ) (N : ℕ) : List ℚ :=
  (List.range N).map fun i : ℕ => a + (i : ℚ) * step

theorem arange_eq_arithList {a stop step : ℚ} (hstep : 0 < step) :
    arange a stop step = arithList a step (⌈(stop - a) / step⌉).toNat := by
  rw [arange, if_pos hstep, arithList]

theorem length_arithList (a step : ℚ) (N : ℕ) : (arithList a step N).length = N := by
  rw [arithList, List.length_map, List.length_range]

theorem getD_arithList {a step : ℚ} {N i : ℕ} (hi : i < N) :
    (arithList a step N).getD i 0 = a + (i : ℚ) * step := by
  rw [arithList,
    List.getD_eq_getElem _ _ (by rw [List.length_map, List.length_range]; exact hi),
    List.getElem_map, List.getElem_range]

theorem arithList_succ (a step : ℚ) (N : ℕ) :
    arithList a step (N + 1) = a :: arithList (a + step) step N := by
  rw [arithList, List.range_succ_eq_map, List.map_cons, List.map_map]
  refine congrArg₂ (· :: ·) (by norm_num) ?_
  rw [arithList]
  refine List.map_congr_left fun i _ => ?_
  simp only [Function.comp_apply]
  push_cast
  ring

theorem mem_arithList {a step b : ℚ} {N : ℕ} (hb : b ∈ arithList a step N) :
    ∃ i : ℕ, i < N ∧ b = a + (i : ℚ) * step := by
  rw [arithList] at hb
  obtain ⟨i, hi, rfl⟩ := List.mem_map.mp hb
  exact ⟨i, List.mem_range.mp hi, rfl⟩

theorem listMin_arithList {a step : ℚ} {N : ℕ} (hstep : 0 ≤ step) (hN : 1 ≤ N) :
    listMin (arithList a step N) = a := by
  obtain ⟨M, rfl⟩ := Nat.exists_eq_add_of_le hN
  rw [Nat.add_comm, arithList_succ, listMin]
  refine foldl_min_const fun b hb => ?_
  obtain ⟨i, hi, rfl⟩ := mem_arithList hb
  nlinarith [step * (i : ℚ), mul_nonneg (by positivity : (0:ℚ) ≤ (i : ℚ)) hstep]

theorem listMax_arithList {a step : ℚ} {N : ℕ} (hstep : 0 ≤ step) (hN : 1 ≤ N) :
    listMax (arithList a step N) = a + ((N - 1 : ℕ) : ℚ) * step := by
  obtain ⟨M, rfl⟩ := Nat.exists_eq_add_of_le hN
  rw [Nat.add_comm, arithList_succ, listMax,
    show (M + 1 - 1 : ℕ) = M from by omega]
  refine foldl_max_eq ?_ ?_
  · rcases Nat.eq_zero_or_pos M with hM | hM
    · subst hM
      simp
    · right
      have h1 : ((M - 1 : ℕ) : ℚ) = (M : ℚ) - 1 := by
        rw [Nat.cast_sub hM, Nat.cast_one]
      have heq : a + (M : ℚ) * step = (a + step) + ((M - 1 : ℕ) : ℚ) * step := by
        rw [h1]
        ring
      rw [heq, arithList]
      exact List.mem_map.mpr ⟨M - 1, List.mem_range.mpr (by omega), rfl⟩
  · intro b hb
    rcases List.mem_cons.mp hb with rfl | hb
    · nlinarith [mul_nonneg (show (0:ℚ) ≤ (M : ℚ) by positivity) hstep]
    · obtain ⟨i, hi, rfl⟩ := mem_arithList hb
      have h2 : (i : ℚ) + 1 ≤ (M : ℚ) := by exact_mod_cast Nat.succ_le_of_lt hi
      nlinarith [mul_nonneg (sub_nonneg.mpr h2) hstep]

theorem diffs_arithList (step : ℚ) :
    ∀ (N : ℕ) (a : ℚ), diffs (arithList a step N) = List.replicate (N - 1) step := by
  intro N
  induction N with
  | zero => intro a; rw [arithList]; rfl
  | succ M ih =>
    intro a
    cases M with
    | zero => rw [arithList_succ, arithList]; rfl
    | succ K =>
      rw [arithList_succ, arithList_succ, diffs,
        show a + step - a = step from by ring, ← arithList_succ, ih (a + step)]
      rfl

theorem mean_replicate {m : ℕ} (hm : 1 ≤ m) (c : ℚ) :
    mean (List.replicate m c) = c := by
  have hne : (m : ℚ) ≠ 0 := Nat.cast_ne_zero.mpr (by omega)
  rw [mean, List.sum_replicate, List.length_replicate, nsmul_eq_mul, mul_comm,
    mul_div_assoc, div_self hne, mul_one]

theorem sorted_arithList {a step : ℚ} (hstep : 0 < step) (N : ℕ) :
    (arithList a step N).Sorted (· < ·) := by
  rw [arithList]
  refine List.Pairwise.map _ ?_ (List.pairwise_lt_range N)
  intro i j hij
  have : (i : ℚ) < (j : ℚ) := by exact_mod_cast hij
  nlinarith

/-- One step of `np.interp` past the first node. -/
theorem npInterp_tail {x0 x1 : ℚ} {xr : List ℚ} {y0 y1 : ℚ} {yr : List ℚ}
    {t : ℚ} (h01 : x0 < x1) (ht : x1 ≤ t) (hlen : xr.length = yr.length) :
    npInterp (x0 :: x1 :: xr) (y0 :: y1 :: yr) t =
      npInterp (x1 :: xr) (y1 :: yr) t := by
  rw [npInterp]
  rw [if_neg (by linarith)]
  by_cases h : t ≤ x1
  · have hteq : t = x1 := le_antisymm h ht
    rw [if_pos h, hteq]
    have hne : x1 - x0 ≠ 0 := by linarith
    cases xr with
    | nil =>
      cases yr with
      | nil =>
        rw [npInterp, if_pos le_rfl]
        field_simp
      | cons d yr' => exact absurd hlen (by simp)
    | cons c xr' =>
      cases yr with
      | nil => exact absurd hlen (by simp)
      | cons d yr' =>
        rw [npInterp, if_pos le_rfl]
        field_simp
  · rw [if_neg h]

/-- Evaluation of `np.interp` at the interpolation nodes reproduces the node
values exactly (strictly increasing nodes, exact arithmetic). -/
theorem npInterp_map_nodes : ∀ xs ys : List ℚ, xs.Sorted (· < ·) →
    xs.length = ys.length → xs.map (npInterp xs ys) = ys := by
  intro xs
  induction xs with
  | nil =>
    intro ys _ hlen
    cases ys with
    | nil => rfl
    | cons b yr => exact absurd hlen (by simp)
  | cons x0 xs ih =>
    intro ys hsort hlen
    cases ys with
    | nil => exact absurd hlen (by simp)
    | cons y0 yr =>
      cases xs with
      | nil =>
        cases yr with
        | nil => simp [npInterp]
        | cons => exact absurd hlen (by simp)
      | cons x1 xr =>
        cases yr with
        | nil => exact absurd hlen (by simp)
        | cons y1 yr' =>
          rw [List.map_cons]
          have hx01 : x0 < x1 := (List.sorted_cons.mp hsort).1 x1 (by simp)
          have htail : (x1 :: xr).Sorted (· < ·) := (List.sorted_cons.mp hsort).2
          have hlen' : xr.length = yr'.length := by
            simpa using hlen
          have hf0 : npInterp (x0 :: x1 :: xr) (y0 :: y1 :: yr') x0 = y0 := by
            simp only [npInterp]
            rw [if_pos le_rfl]
          have hcong : (x1 :: xr).map (npInterp (x0 :: x1 :: xr) (y0 :: y1 :: yr')) =
              (x1 :: xr).map (npInterp (x1 :: xr) (y1 :: yr')) := by
            refine List.map_congr_left fun t ht => ?_
            have hx1t : x1 ≤ t := by
              rcases List.mem_cons.mp ht with rfl | htl
              · exact le_rfl
              · exact le_of_lt ((List.sorted_cons.mp htail).1 t htl)
            exact npInterp_tail hx01 hx1t hlen'
          rw [hf0, hcong, ih (y1 :: yr') htail (by simpa using hlen)]

/-- The interpolation branch of `resample` with the linear method. -/
theorem resample_interp_eq {L : Libs} {x y : List ℚ} {modeIdx : ℕ}
    {val P : ℚ} {fIdx : ℕ} (hn : ¬ x.length < 2)
    (hper : newPeriodOf modeIdx val (listMax x - listMin x) x.length = .ok P)
    (hbranch : ¬ (mean (diffs x) < P ∧ fIdx < 2)) :
    resample L x y modeIdx val 0 fIdx =
      .ok (arange (listMin x) (listMax x + P / 2) P,
        (arange (listMin x) (listMax x + P / 2) P).map (npInterp x y)) := by
  unfold resample
  rw [if_neg hn]
  simp only []
  rw [hper]
  simp only []
  rw [if_neg hbranch]

/-- C5 (amended): when `resample` takes the interpolation path (any
method), the output x-grid starts exactly at `x_min`, consecutive grid
points are spaced exactly the requested period apart, and the grid's last
point lies within half a period of `x_max` — strictly below `x_max + P/2`
and at least `x_max - P/2`.  The grid need not end at `x_max` itself, and
the decimation path (every `q`-th input sample) carries no such guarantee:
the original claim's "last point is at x_max" is false (see the
counterexample). -/
theorem claim_C5_grid (L : Libs) (x y : List ℚ) (modeIdx : ℕ) (val P : ℚ)
    (mIdx fIdx : ℕ) (hn : 2 ≤ x.length)
    (hper : newPeriodOf modeIdx val (listMax x - listMin x) x.length = .ok P)
    (hP : 0 < P) (hbranch : ¬ (mean (diffs x) < P ∧ fIdx < 2)) (hm : mIdx ≤ 3) :
    ∃ ys, resample L x y modeIdx val mIdx fIdx =
        .ok (arange (listMin x) (listMax x + P / 2) P, ys) ∧
      (arange (listMin x) (listMax x + P / 2) P).getD 0 0 = listMin x ∧
      (∀ i : ℕ, i + 1 < (arange (listMin x) (listMax x + P / 2) P).length →
        (arange (listMin x) (listMax x + P / 2) P).getD (i + 1) 0 -
          (arange (listMin x) (listMax x + P / 2) P).getD i 0 = P) ∧
      listMax x - P / 2 ≤ (arange (listMin x) (listMax x + P / 2) P).getD
          ((arange (listMin x) (listMax x + P / 2) P).length - 1) 0 ∧
      (arange (listMin x) (listMax x + P / 2) P).getD
          ((arange (listMin x) (listMax x + P / 2) P).length - 1) 0 <
        listMax x + P / 2 := by
  have hxne : x ≠ [] := by
    intro hx
    rw [hx] at hn
    exact absurd hn (by simp)
  have hw : listMin x ≤ listMax x := listMin_le_listMax hxne
  set c := ⌈(listMax x + P / 2 - listMin x) / P⌉ with hc
  have hz : 0 < (listMax x + P / 2 - listMin x) / P := div_pos (by linarith) hP
  have hc1 : 1 ≤ c := Int.ceil_pos.mpr hz
  have hlen : (arange (listMin x) (listMax x + P / 2) P).length = c.toNat :=
    length_arange hP
  have hN1 : 1 ≤ c.toNat := by omega
  have hle : (listMax x + P / 2 - listMin x) / P ≤ (c : ℚ) := Int.le_ceil _
  have hlt : (c : ℚ) < (listMax x + P / 2 - listMin x) / P + 1 :=
    Int.ceil_lt_add_one _
  have hle' : listMax x + P / 2 - listMin x ≤ (c : ℚ) * P := (div_le_iff₀ hP).mp hle
  have hlt' : ((c : ℚ) - 1) * P < listMax x + P / 2 - listMin x := by
    have hstep1 : (c : ℚ) - 1 < (listMax x + P / 2 - listMin x) / P := by
      linarith
    have h2 := mul_lt_mul_of_pos_right hstep1 hP
    rwa [div_mul_cancel₀ _ (ne_of_gt hP)] at h2
  have hcast : ((c.toNat - 1 : ℕ) : ℚ) = (c : ℚ) - 1 := by
    have h1 : (c.toNat - 1 : ℕ) = (c - 1).toNat := by omega
    have h2 : ((c - 1).toNat : ℤ) = c - 1 := Int.toNat_of_nonneg (by omega)
    rw [h1, show (((c - 1).toNat : ℕ) : ℚ) = (((c - 1).toNat : ℤ) : ℚ) from by
      push_cast; ring, h2]
    push_cast
    ring
  have hres : ∃ ys, resample L x y modeIdx val mIdx fIdx =
      .ok (arange (listMin x) (listMax x + P / 2) P, ys) := by
    unfold resample
    rw [if_neg (by omega)]
    simp only []
    rw [hper]
    simp only []
    rw [if_neg hbranch]
    interval_cases mIdx <;> exact ⟨_, rfl⟩
  obtain ⟨ys, hys⟩ := hres
  refine ⟨ys, hys, ?_, ?_, ?_, ?_⟩
  · rw [getD_arange hP (by omega)]
    norm_num
  · intro i hi
    rw [getD_arange hP (by omega), getD_arange hP (by omega)]
    push_cast
    ring
  · rw [getD_arange hP (by omega), hlen, hcast]
    linarith
  · rw [getD_arange hP (by omega), hlen, hcast]
    linarith

/-- C5 counterexample: `x = y = [0, 1]`, requested period `3/10`, linear
method, filter None — the call succeeds with x-grid `[0, 3/10, 3/5, 9/10]`,
whose last point `9/10` is not `x_max = 1` (the discrepancy `1/10` is a
third of the period, far beyond any floating-point tolerance). -/
theorem claim_C5_counterexample :
    resample trivLibs [0, 1] [0, 1] 0 (3/10) 0 2 =
      .ok ([0, 3/10, 3/5, 9/10], [0, 3/10, 3/5, 9/10]) ∧
    listMax [(0 : ℚ), 1] = 1 ∧ ((9 : ℚ)/10) ≠ 1 := by
  refine ⟨?_, by norm_num [listMax], by norm_num⟩
  norm_num [resample, newPeriodOf, mean, diffs, listMin, listMax, arange,
    npInterp, ceil_eq_neg_floor_neg, List.range_succ]
  rw [show Int.toNat 4 = 4 from rfl]
  norm_num [List.range_succ, npInterp]

theorem claim_C5_grid_witness :
    (arange (listMin [(0 : ℚ), 1]) (listMax [(0 : ℚ), 1] + (3/10) / 2)
      (3/10)).getD 0 0 = listMin [(0 : ℚ), 1] ∧
    listMax [(0 : ℚ), 1] - (3/10) / 2 ≤
      (arange (listMin [(0 : ℚ), 1]) (listMax [(0 : ℚ), 1] + (3/10) / 2)
        (3/10)).getD
        ((arange (listMin [(0 : ℚ), 1]) (listMax [(0 : ℚ), 1] + (3/10) / 2)
          (3/10)).length - 1) 0 ∧
    (arange (listMin [(0 : ℚ), 1]) (listMax [(0 : ℚ), 1] + (3/10) / 2)
      (3/10)).getD
        ((arange (listMin [(0 : ℚ), 1]) (listMax [(0 : ℚ), 1] + (3/10) / 2)
          (3/10)).length - 1) 0 <
      listMax [(0 : ℚ), 1] + (3/10) / 2 := by
  obtain ⟨ys, hys, h1, h2, h3, h4⟩ := claim_C5_grid trivLibs [0, 1] [0, 1]
    0 (3/10) (3/10) 0 2 (by norm_num) (by norm_num [newPeriodOf])
    (by norm_num) (by simp) (by norm_num)
  exact ⟨h1, h3, h4⟩

/-- C6 (amended): `resample` has a third silent clamp beyond the decimation
factor clamp and the epsilon padding: in factor mode, when the implied
output point count `int(n * f)` is below 2 it is silently clamped to 2
(`new_n = 2`), so the call succeeds with `new_period = x_range / (2 - 1)`
instead of failing with an invalid-point-count error.  The other violated
constraints (non-positive period/frequency/factor, explicit point count
below 2, unrecognized mode/method) are still surfaced as errors. -/
theorem claim_C6_factor_clamp (L : Libs) (x y : List ℚ) (val : ℚ)
    (hn : 2 ≤ x.length) (hval : 0 < val)
    (hsmall : pyInt ((x.length : ℚ) * val) < 2) :
    newPeriodOf 3 val (listMax x - listMin x) x.length =
      .ok (listMax x - listMin x) ∧
    (∃ p, resample L x y 3 val 0 2 = .ok p) ∧
    (∀ v : ℚ, v ≤ 0 → newPeriodOf 3 v (listMax x - listMin x) x.length =
      .error .invalidFactor) ∧
    (∀ v : ℚ, pyInt v < 2 → newPeriodOf 2 v (listMax x - listMin x) x.length =
      .error .invalidPointCount) := by
  have hper : newPeriodOf 3 val (listMax x - listMin x) x.length =
      .ok (listMax x - listMin x) := by
    unfold newPeriodOf
    norm_num [not_le.mpr hval]
    rw [if_pos hsmall]
    norm_num
  refine ⟨hper, ?_, ?_, ?_⟩
  · unfold resample
    rw [if_neg (by omega)]
    simp only []
    rw [hper]
    simp only []
    rw [if_neg (by simp)]
    exact ⟨_, rfl⟩
  · intro v hv
    unfold newPeriodOf
    norm_num [hv]
  · intro v hv
    unfold newPeriodOf
    norm_num [hv]

/-- C6 counterexample: on a 2-point signal with factor `f = 1/2`, the
implied point count `int(2 * 1/2) = 1` is below 2, yet the call succeeds
(with the count silently clamped to 2) instead of failing. -/
theorem claim_C6_counterexample :
    pyInt ((2 : ℚ) * (1/2)) < 2 ∧
    resample trivLibs [0, 1] [0, 1] 3 (1/2) 0 2 = .ok ([0, 1], [0, 1]) := by
  constructor
  · norm_num [pyInt]
  · norm_num [resample, newPeriodOf, pyInt, mean, diffs, listMin, listMax,
      arange, npInterp, ceil_eq_neg_floor_neg, List.range_succ]
    rw [show Int.toNat 2 = 2 from rfl]
    norm_num [List.range_succ, npInterp]

theorem claim_C6_factor_clamp_witness :
    newPeriodOf 3 (1/2) (listMax [(0 : ℚ), 1] - listMin [(0 : ℚ), 1])
      ([(0 : ℚ), 1].length) = .ok (listMax [(0 : ℚ), 1] - listMin [(0 : ℚ), 1]) ∧
    (resample trivLibs [0, 1] [0, 1] 3 (1/2) 0 2).toOption.isSome = true := by
  have h := claim_C6_factor_clamp trivLibs [0, 1] [0, 1] (1/2) (by norm_num)
    (by norm_num) (by norm_num [pyInt])
  refine ⟨h.1, ?_⟩
  obtain ⟨p, hp⟩ := h.2.1
  rw [hp]
  rfl

/-- The interpolant selected by the method index (lines 360-374 of
`resample_series`): linear `np.interp`, CubicSpline, Pchip, Akima. -/
def interpOf (L : Libs) (x y : List ℚ) : ℕ → ℚ → ℚ
  | 0 => npInterp x y
  | 1 => L.cubic x y
  | 2 => L.pchip x y
  | 3 => L.akima x y
  | _ => fun _ => 0

/-- The node-reproduction laws the real scipy interpolants satisfy:
`CubicSpline`, `PchipInterpolator` and `Akima1DInterpolator` are
interpolants — evaluated at their construction nodes they return the node
values exactly (for strictly increasing nodes), just as `np.interp` does
(`npInterp_map_nodes`). -/
structure SplinesOk (L : Libs) : Prop where
  cubic_nodes : ∀ xs ys : List ℚ, xs.Sorted (· < ·) → xs.length = ys.length →
    xs.map (L.cubic xs ys) = ys
  pchip_nodes : ∀ xs ys : List ℚ, xs.Sorted (· < ·) → xs.length = ys.length →
    xs.map (L.pchip xs ys) = ys
  akima_nodes : ∀ xs ys : List ℚ, xs.Sorted (· < ·) → xs.length = ys.length →
    xs.map (L.akima xs ys) = ys

/-- A concrete library instance whose spline fields are genuine
interpolants (modelled by linear interpolation, which reproduces nodes);
used to evaluate the embedding on closed inputs where node reproduction
matters. -/
def nodeLibs : Libs where
  fft := fun s => s.map (fun a => (a, 0))
  ifft := fun s => s
  detrend := fun s => s
  lowpass := fun _ _ s => s
  cubic := npInterp
  pchip := npInterp
  akima := npInterp

theorem nodeLibs_splines_ok : SplinesOk nodeLibs :=
  ⟨npInterp_map_nodes, npInterp_map_nodes, npInterp_map_nodes⟩

/-- The interpolation branch of `resample` for any recognized method
index. -/
theorem resample_interp_eq_gen {L : Libs} {x y : List ℚ} {modeIdx : ℕ}
    {val P : ℚ} {mIdx fIdx : ℕ} (hn : ¬ x.length < 2)
    (hper : newPeriodOf modeIdx val (listMax x - listMin x) x.length = .ok P)
    (hbranch : ¬ (mean (diffs x) < P ∧ fIdx < 2)) (hm : mIdx ≤ 3) :
    resample L x y modeIdx val mIdx fIdx =
      .ok (arange (listMin x) (listMax x + P / 2) P,
        (arange (listMin x) (listMax x + P / 2) P).map (interpOf L x y mIdx)) := by
  unfold resample
  rw [if_neg hn]
  simp only []
  rw [hper]
  simp only []
  rw [if_neg hbranch]
  interval_cases mIdx <;> rfl

/-- A signal whose x-grid is already the arithmetic grid of period `P` is a
fixed point of `resample` at period `P` for every recognized interpolation
method: the second pass regenerates the same grid and the interpolant
(linear, or any node-reproducing spline) returns the node values
exactly. -/
theorem resample_arith_fixed (L : Libs) (hspl : SplinesOk L) (a P : ℚ)
    (N : ℕ) (ys : List ℚ) (mIdx fIdx : ℕ) (hP : 0 < P) (hN : 2 ≤ N)
    (hm : mIdx ≤ 3) (hlen : ys.length = N) :
    resample L (arithList a P N) ys 0 P mIdx fIdx =
      .ok (arithList a P N, ys) := by
  have hAlen : (arithList a P N).length = N := length_arithList a P N
  have hmin : listMin (arithList a P N) = a :=
    listMin_arithList (le_of_lt hP) (by omega)
  have hmax : listMax (arithList a P N) = a + ((N - 1 : ℕ) : ℚ) * P :=
    listMax_arithList (le_of_lt hP) (by omega)
  have hmean : mean (diffs (arithList a P N)) = P := by
    rw [diffs_arithList P N a]
    exact mean_replicate (by omega) P
  have hper2 : newPeriodOf 0 P
      (listMax (arithList a P N) - listMin (arithList a P N))
      (arithList a P N).length = .ok P := by
    unfold newPeriodOf
    norm_num [not_le.mpr hP]
  have hbranch2 : ¬ (mean (diffs (arithList a P N)) < P ∧ fIdx < 2) := by
    rw [hmean]
    exact fun h => absurd h.1 (lt_irrefl P)
  have heq2 := @resample_interp_eq_gen L (arithList a P N) ys 0 P P mIdx fIdx
    (by omega) hper2 hbranch2 hm
  have hcast : ((N - 1 : ℕ) : ℚ) = (N : ℚ) - 1 := by
    rw [Nat.cast_sub (by omega), Nat.cast_one]
  have harg : (a + ((N - 1 : ℕ) : ℚ) * P + P / 2 - a) / P =
      ((N - 1 : ℕ) : ℚ) + 1 / 2 := by
    field_simp
    ring
  have hceil : ⌈((N - 1 : ℕ) : ℚ) + 1 / 2⌉ = (N : ℤ) := by
    rw [Int.ceil_eq_iff]
    rw [hcast]
    constructor
    · push_cast
      linarith
    · push_cast
      linarith
  have hgrid2 : arange (listMin (arithList a P N))
      (listMax (arithList a P N) + P / 2) P = arithList a P N := by
    rw [hmin, hmax, arange_eq_arithList hP, harg, hceil, Int.toNat_natCast]
  have hyseq : (arithList a P N).map (interpOf L (arithList a P N) ys mIdx) = ys := by
    have hsorted := @sorted_arithList a P hP N
    have hlen2 : (arithList a P N).length = ys.length := by rw [hAlen, hlen]
    interval_cases mIdx
    · exact npInterp_map_nodes _ _ hsorted hlen2
    · exact hspl.cubic_nodes _ _ hsorted hlen2
    · exact hspl.pchip_nodes _ _ hsorted hlen2
    · exact hspl.akima_nodes _ _ hsorted hlen2
  rw [heq2, hgrid2, hyseq]

/-- C8 (amended): `resample` at a fixed target period `P` is idempotent
whenever the call takes the interpolation path — with any of the four
recognized methods (linear, CubicSpline, Pchip, Akima; the spline library
functions are interpolants and reproduce their node values, `SplinesOk`) —
and produces at least 2 points: resampling the output again with the same
period and options returns exactly the same signal, because the second
call regenerates the identical x-grid and the interpolant returns the node
values there.  The decimation path is NOT idempotent: a second pass
decimates again with a factor clamped to ≥ 2 (see the counterexample). -/
theorem claim_C8_idempotent (L : Libs) (hspl : SplinesOk L) (x y : List ℚ)
    (P : ℚ) (mIdx fIdx : ℕ) (xs ys : List ℚ) (hP : 0 < P) (hn : 2 ≤ x.length)
    (hm : mIdx ≤ 3)
    (hbranch : ¬ (mean (diffs x) < P ∧ fIdx < 2))
    (hN : 2 ≤ (arange (listMin x) (listMax x + P / 2) P).length)
    (h1 : resample L x y 0 P mIdx fIdx = .ok (xs, ys)) :
    resample L xs ys 0 P mIdx fIdx = .ok (xs, ys) := by
  have hper1 : newPeriodOf 0 P (listMax x - listMin x) x.length = .ok P := by
    unfold newPeriodOf
    norm_num [not_le.mpr hP]
  have heq1 := @resample_interp_eq_gen L x y 0 P P mIdx fIdx (by omega) hper1
    hbranch hm
  have h2 : (arange (listMin x) (listMax x + P / 2) P,
      (arange (listMin x) (listMax x + P / 2) P).map (interpOf L x y mIdx)) =
      (xs, ys) := Except.ok.inj (heq1.symm.trans h1)
  injection h2 with hxs hys
  subst hxs
  subst hys
  rw [length_arange hP] at hN
  rw [arange_eq_arithList hP]
  refine resample_arith_fixed L hspl (listMin x) P _ _ mIdx fIdx hP hN hm ?_
  rw [List.length_map, length_arithList]

/-- C8 counterexample: `x = y = [0,1,2,3]`, target period `17/5 = 3.4`, FIR
filter (identity low-pass model; the shown divergence is in the x-grids and
output lengths, which do not depend on the filter values).  The first call
decimates with `q = 3` to a 2-point signal with spacing 3; the second call
still sees `3.4 > 3`, rounds `3.4/3` to 1, clamps to `q = 2`, and halves
the signal again — `resample(resample(s)) ≠ resample(s)`. -/
theorem claim_C8_counterexample :
    resample trivLibs [0, 1, 2, 3] [0, 1, 2, 3] 0 (17/5) 0 0 =
      .ok ([0, 3], [0, 3]) ∧
    resample trivLibs [0, 3] [0, 3] 0 (17/5) 0 0 = .ok ([0], [0]) ∧
    ([0] : List ℚ) ≠ [0, 3] := by
  refine ⟨?_, ?_, by simp⟩
  · norm_num [resample, newPeriodOf, pyRound, mean, diffs, listMin, listMax,
      everyNth, trivLibs]
    rw [show Int.toNat 3 = 3 from rfl]
    norm_num [everyNth]
  · norm_num [resample, newPeriodOf, pyRound, mean, diffs, listMin, listMax,
      everyNth, trivLibs]
    rw [show Int.toNat 2 = 2 from rfl]
    norm_num [everyNth]

theorem claim_C8_idempotent_witness :
    resample nodeLibs [0, 1, 2, 3] [0, 1, 2, 3] 0 1 1 2 =
      .ok ([0, 1, 2, 3], [0, 1, 2, 3]) := by
  refine claim_C8_idempotent nodeLibs nodeLibs_splines_ok [0, 1, 2, 3]
    [0, 1, 2, 3] 1 1 2 [0, 1, 2, 3] [0, 1, 2, 3] (by norm_num) (by norm_num)
    (by norm_num) (by simp) ?_ ?_
  · rw [length_arange (by norm_num)]
    norm_num [listMin, listMax, ceil_eq_neg_floor_neg]
  · norm_num [resample, newPeriodOf, mean, diffs, listMin, listMax, arange,
      npInterp, nodeLibs, ceil_eq_neg_floor_neg, List.range_succ]
    rw [show Int.toNat 4 = 4 from rfl]
    norm_num [List.range_succ, npInterp]

theorem claim_C4_decimation_witness :
    resample trivLibs x10 x10 0 3 1 0 =
      .ok (everyNth 3 x10, everyNth 3 (trivLibs.lowpass 0 3 x10)) ∧
    (everyNth 3 x10).getD 1 0 = x10.getD (3 * 1) 0 := by
  have h := claim_C4_decimation trivLibs trivLibs_ok x10 x10 3 1 0 3
    (by norm_num [x10]) rfl (by norm_num)
    (by norm_num [x10, diffs, mean])
    (by norm_num)
    (by norm_num [x10, diffs, mean, pyRound]; rfl)
  exact ⟨h.1, h.2.2 1⟩

end Graphia
